import Mathlib

/-!
Shallow embedding of the DevTrack persistence layer: the entity model
(`src/src/core/project.cpp`), the SQLite-backed store
(`src/src/data/database.cpp`), and the repository façade
(`src/src/core/project_manager.cpp`).

Doubles are modelled as rationals (`ℚ`); no claim depends on floating-point
rounding.  Timestamps are modelled as seconds-since-epoch integers, which is
exactly what the store persists.  C++ exceptions are modelled with
`Except String` / an `Option String` error component; when an operation
throws, the caller's objects are unchanged (the strong guarantee the source
documents), which the models make explicit by returning the pre-state.
-/

namespace DevTrack

/-- The four-value status enumeration from `include/core/project.h`
(0=NOT_STARTED, 1=IN_PROGRESS, 2=PAUSED, 3=COMPLETED). -/
inductive ProjectStatus where
  | NOT_STARTED
  | IN_PROGRESS
  | PAUSED
  | COMPLETED
deriving DecidableEq

/-- `struct Task` from `include/core/project.h`.  `deadline` is the
seconds-since-epoch integer the store persists; `progress` models the
`double` field. -/
structure Task where
  name : String
  description : String
  status : ProjectStatus
  deadline : Int
  progress : ℚ
deriving DecidableEq

/-- `class Project` state from `include/core/project.h`. -/
structure Project where
  m_name : String
  m_description : String
  m_status : ProjectStatus
  m_tasks : List Task
deriving DecidableEq

/-- `Project::Project(name, description)`: NOT_STARTED status, no tasks. -/
def Project.new (name description : String) : Project :=
  ⟨name, description, ProjectStatus.NOT_STARTED, []⟩

/-- `Project::getName`. -/
def Project.getName (p : Project) : String := p.m_name

/-- `Project::getDescription`. -/
def Project.getDescription (p : Project) : String := p.m_description

/-- `Project::getStatus`. -/
def Project.getStatus (p : Project) : ProjectStatus := p.m_status

/-- `Project::getTasks` (returns a copy of `m_tasks`). -/
def Project.getTasks (p : Project) : List Task := p.m_tasks

/-- `std::max(0.0, std::min(100.0, progress))` from
`Project::updateTaskProgress`. -/
def clamp01 (x : ℚ) : ℚ := max 0 (min 100 x)

/-- The status `Project::updateProjectStatus` (project.cpp lines 98-124)
assigns to `m_status`: empty task list gives NOT_STARTED; otherwise
COMPLETED when every task's progress is ≥ 100 (`allTasksComplete`),
IN_PROGRESS when the average progress is > 0, NOT_STARTED otherwise. -/
def statusFromTasks (ts : List Task) : ProjectStatus :=
  if ts.isEmpty then ProjectStatus.NOT_STARTED
  else if ts.all fun t => decide ((100 : ℚ) ≤ t.progress) then ProjectStatus.COMPLETED
  else if (0 : ℚ) < (ts.map Task.progress).sum / ts.length then ProjectStatus.IN_PROGRESS
  else ProjectStatus.NOT_STARTED

/-- `Project::updateProjectStatus`: recompute `m_status` from the tasks;
no other field changes. -/
def Project.updateProjectStatus (p : Project) : Project :=
  { p with m_status := statusFromTasks p.m_tasks }

/-- `Project::addTask` (project.cpp lines 45-58): duplicate detection by
exact (`==`) name comparison; on success the task is appended and the
project status recomputed. -/
def Project.addTask (p : Project) (task : Task) : Except String Project :=
  if p.m_tasks.any fun t => t.name == task.name then
    Except.error "Task with this name already exists"
  else
    Except.ok (Project.updateProjectStatus { p with m_tasks := p.m_tasks ++ [task] })

/-- The in-place mutation `it->progress = ...; it->status = ...` applied to
the first task matching `taskName` (the `std::find_if` result). -/
def updateFirst (taskName : String) (progress : ℚ) : List Task → List Task
  | [] => []
  | t :: rest =>
    if t.name == taskName then
      { t with progress := clamp01 progress,
               status := if (100 : ℚ) ≤ clamp01 progress then
                   ProjectStatus.COMPLETED else ProjectStatus.IN_PROGRESS } :: rest
    else
      t :: updateFirst taskName progress rest

/-- `Project::updateTaskProgress` (project.cpp lines 70-85). -/
def Project.updateTaskProgress (p : Project) (taskName : String) (progress : ℚ) :
    Except String Project :=
  if p.m_tasks.any fun t => t.name == taskName then
    Except.ok (Project.updateProjectStatus
      { p with m_tasks := updateFirst taskName progress p.m_tasks })
  else
    Except.error "Task not found"

/-- `m_tasks.erase(it)` for the first task matching `taskName`. -/
def removeFirst (taskName : String) : List Task → List Task
  | [] => []
  | t :: rest => if t.name == taskName then rest else t :: removeFirst taskName rest

/-- `Project::removeTask` (project.cpp lines 146-156): no-op when no task
matches, otherwise erases the first match and recomputes the status. -/
def Project.removeTask (p : Project) (taskName : String) : Project :=
  if p.m_tasks.any fun t => t.name == taskName then
    Project.updateProjectStatus { p with m_tasks := removeFirst taskName p.m_tasks }
  else
    p

/-- `Project::setProjectStatus`. -/
def Project.setProjectStatus (p : Project) (status : ProjectStatus) : Project :=
  { p with m_status := status }

/-- `Project::getOverallProgress`. -/
def Project.getOverallProgress (p : Project) : ℚ :=
  if p.m_tasks.isEmpty then 0
  else (p.m_tasks.map Task.progress).sum / p.m_tasks.length

/-- Spec-side definition (§3/§4.1 of the specification): the derived project
status — NotStarted if no tasks; Completed if every task has progress ≥ 100;
InProgress if the mean progress is > 0; NotStarted otherwise.  Kept separate
from `Project.updateProjectStatus` so claims can compare the code's result
with the spec's derivation rule. -/
def specDerivedStatus (ts : List Task) : ProjectStatus :=
  if ts.isEmpty then ProjectStatus.NOT_STARTED
  else if ts.all fun t => decide ((100 : ℚ) ≤ t.progress) then ProjectStatus.COMPLETED
  else if (0 : ℚ) < (ts.map Task.progress).sum / ts.length then ProjectStatus.IN_PROGRESS
  else ProjectStatus.NOT_STARTED

/-- One invocation of a public `Project` operation. -/
inductive Op where
  | add (t : Task)
  | update (name : String) (progress : ℚ)
  | remove (name : String)
  | setStatus (s : ProjectStatus)

/-- Running one public operation.  A throwing call (`Except.error`) leaves
the project unchanged — the strong guarantee project.cpp documents. -/
def applyOp (p : Project) : Op → Project
  | Op.add t =>
    match p.addTask t with
    | Except.ok q => q
    | Except.error _ => p
  | Op.update name v =>
    match p.updateTaskProgress name v with
    | Except.ok q => q
    | Except.error _ => p
  | Op.remove name => p.removeTask name
  | Op.setStatus s => p.setProjectStatus s

/-- Running a sequence of public operations from a given project state. -/
def applyOps (p : Project) (ops : List Op) : Project := ops.foldl applyOp p

/-- A row of the `projects` table
(`name TEXT PRIMARY KEY COLLATE NOCASE, description TEXT, status INTEGER`). -/
structure ProjectRow where
  name : String
  description : String
  status : ProjectStatus
deriving DecidableEq

/-- A row of the `tasks` table (`project_name, task_name, description,
status, deadline, progress`). -/
structure TaskRow where
  project_name : String
  task_name : String
  description : String
  status : ProjectStatus
  deadline : Int
  progress : ℚ
deriving DecidableEq

/-- The visible contents of the SQLite database: the two tables, rows in
rowid (insertion) order. -/
structure DBState where
  projects : List ProjectRow
  tasks : List TaskRow
deriving DecidableEq

/-- SQLite's NOCASE collation folds exactly the 26 upper-case ASCII
letters. -/
def asciiLower (c : Char) : Char :=
  if 'A' ≤ c ∧ c ≤ 'Z' then Char.ofNat (c.toNat + 32) else c

/-- The NOCASE collation key of a string. -/
def nocaseKey (s : String) : List Char := s.data.map asciiLower

/-- Equality of two strings under the NOCASE collation, as used by the
`name` / `project_name` column comparisons. -/
def eqNoCase (s t : String) : Bool := decide (nocaseKey s = nocaseKey t)

/-- The `tasks` row written for task `t` of project `projectName` by the
INSERT statements in database.cpp. -/
def taskRowOf (projectName : String) (t : Task) : TaskRow :=
  ⟨projectName, t.name, t.description, t.status, t.deadline, t.progress⟩

/-- The `Task` rebuilt from a `tasks` row by `Database::loadAllProjects`. -/
def taskOfRow (r : TaskRow) : Task :=
  ⟨r.task_name, r.description, r.status, r.deadline, r.progress⟩

/-- `Database::insertProject` (database.cpp lines 124-167): inside one
transaction, inserts the project row (failing on the NOCASE primary key if
a project with the same name in any case already exists, with the whole
transaction rolled back) and then every task row.  The second component is
the thrown error message, `none` on success. -/
def Database.insertProject (db : DBState) (p : Project) : DBState × Option String :=
  if db.projects.any fun r => eqNoCase r.name p.getName then
    (db, some "Failed to insert project: UNIQUE constraint failed: projects.name")
  else
    ({ projects := db.projects ++ [⟨p.getName, p.getDescription, p.getStatus⟩],
       tasks := db.tasks ++ p.getTasks.map (taskRowOf p.getName) }, none)

/-- `Database::projectExists` (database.cpp lines 276-292):
`SELECT COUNT(*) FROM projects WHERE name = ?` against the NOCASE-collated
name column. -/
def Database.projectExists (db : DBState) (projectName : String) : Bool :=
  db.projects.any fun r => eqNoCase r.name projectName

/-- `Database::deleteProject` (database.cpp lines 217-274): checks existence
before mutating; then, inside one transaction, deletes the project rows and
the task rows whose NOCASE name matches.  `fault = some false` means the
project-row DELETE statement failed, `fault = some true` the task-row
DELETE; in either case the transaction is rolled back (pre-state returned)
and the error is re-thrown wrapped in "Failed to delete project: ". -/
def Database.deleteProject (db : DBState) (projectName : String)
    (fault : Option Bool) : DBState × Option String :=
  if ¬ Database.projectExists db projectName then
    (db, some "Project does not exist")
  else
    match fault with
    | some false =>
      (db, some "Failed to delete project: Failed to delete project from database")
    | some true =>
      (db, some "Failed to delete project: Failed to delete project tasks from database")
    | none =>
      ({ projects := db.projects.filter fun r => ! eqNoCase r.name projectName,
         tasks := db.tasks.filter fun r => ! eqNoCase r.project_name projectName }, none)

/-- The `UPDATE projects SET description = ?, status = ? WHERE name = ?`
statement of `Database::updateProject`. -/
def updMeta (db : DBState) (p : Project) : DBState :=
  { db with projects := db.projects.map fun r =>
      if eqNoCase r.name p.getName then
        { r with description := p.getDescription, status := p.getStatus }
      else r }

/-- The `DELETE FROM tasks WHERE project_name = ?` statement. -/
def delTasksOf (db : DBState) (name : String) : DBState :=
  { db with tasks := db.tasks.filter fun r => ! eqNoCase r.project_name name }

/-- One `INSERT INTO tasks ...` statement. -/
def insTaskRow (db : DBState) (row : TaskRow) : DBState :=
  { db with tasks := db.tasks ++ [row] }

/-- `SQLITE_OK` (0): the only code `Database::handleSQLiteError` accepts. -/
def sqliteOK : Int := 0

/-- `SQLITE_DONE` (101): what `sqlite3_step` returns when an
INSERT/UPDATE/DELETE statement has executed successfully. -/
def sqliteDONE : Int := 101

/-- `Database::handleSQLiteError` (database.cpp lines 118-122): throws
whenever `rc != SQLITE_OK`.  The model keeps the context part of the
thrown message and drops the appended engine text. -/
def handleSQLiteError (rc : Int) (errorContext : String) : Option String :=
  if rc ≠ sqliteOK then some errorContext else none

/-- `Database::updateProject` (database.cpp lines 169-215).  No transaction
is opened.  The metadata UPDATE statement executes and its `sqlite3_step`
returns SQLITE_DONE, which the following `handleSQLiteError(rc, "Failed to
update project")` — testing `rc != SQLITE_OK`, unlike the `rc !=
SQLITE_DONE` tests used in insertProject and deleteProject — treats as an
error, so the function always throws right after the UPDATE took effect.
The task DELETE and re-INSERT statements further down are unreachable; the
`none` branch below mirrors them but is dead code, exactly as in the
source. -/
def Database.updateProject (db : DBState) (p : Project) : DBState × Option String :=
  match handleSQLiteError sqliteDONE "Failed to update project" with
  | some msg => (updMeta db p, some msg)
  | none =>
    ((p.getTasks.map (taskRowOf p.getName)).foldl insTaskRow
      (delTasksOf (updMeta db p) p.getName), none)

/-- The task rows `Database::loadAllProjects` reads for one project:
`SELECT ... FROM tasks WHERE project_name = ?` (NOCASE), in rowid order. -/
def loadTasksFor (db : DBState) (name : String) : List TaskRow :=
  db.tasks.filter fun r => eqNoCase r.project_name name

/-- Folding `Project::addTask` over loaded task rows (the inner while-loop
of `Database::loadAllProjects`). -/
def addLoadedTasks (p : Project) : List TaskRow → Except String Project
  | [] => Except.ok p
  | row :: rest => do
    let q ← p.addTask (taskOfRow row)
    addLoadedTasks q rest

/-- The per-project-row body of `Database::loadAllProjects` (database.cpp
lines 304-341): build `Project(name, description)`, `setProjectStatus` with
the stored status, then `addTask` each task row in order (each `addTask`
recomputes the project status and may throw). -/
def loadOneProject (db : DBState) (r : ProjectRow) : Except String Project :=
  addLoadedTasks ((Project.new r.name r.description).setProjectStatus r.status)
    (loadTasksFor db r.name)

/-- The outer loop of `Database::loadAllProjects` over project rows, in
order; an exception from any `addTask` propagates. -/
def loadProjectsList (db : DBState) : List ProjectRow → Except String (List Project)
  | [] => Except.ok []
  | r :: rest => do
    let p ← loadOneProject db r
    let ps ← loadProjectsList db rest
    pure (p :: ps)

/-- `Database::loadAllProjects` (database.cpp lines 294-346). -/
def Database.loadAllProjects (db : DBState) : Except String (List Project) :=
  loadProjectsList db db.projects

/-- Well-formedness of a database state, as maintained by the store's own
operations: project NOCASE keys are pairwise distinct (the primary key),
every task row belongs to an existing project, and the task rows of each
project carry pairwise distinct task names (true of every task list a
`Project` can hold, since `addTask` rejects duplicates). -/
def WF (db : DBState) : Prop :=
  (db.projects.map fun r => nocaseKey r.name).Nodup ∧
  (∀ tr ∈ db.tasks, ∃ pr ∈ db.projects, eqNoCase tr.project_name pr.name = true) ∧
  (∀ pr ∈ db.projects, ((loadTasksFor db pr.name).map TaskRow.task_name).Nodup)

/-- `ProjectManager::createProject` (project_manager.cpp lines 49-60):
builds `Project(name, description)`, inserts it, returns `true`; any
exception is caught and converted to `false`. -/
def ProjectManager.createProject (db : DBState) (name description : String) :
    Bool × DBState :=
  match Database.insertProject db (Project.new name description) with
  | (db', none) => (true, db')
  | (db', some _) => (false, db')

/-- `ProjectManager::getProjectByName` (project_manager.cpp lines 143-160):
loads all projects and returns the first whose name equals `name` under
exact (`==`) string comparison, throwing "Project not found" otherwise. -/
def ProjectManager.getProjectByName (db : DBState) (name : String) :
    Except String Project := do
  let projects ← Database.loadAllProjects db
  match projects.find? fun p => p.getName == name with
  | some p => pure p
  | none => Except.error "Project not found"

instance decidableWF (db : DBState) : Decidable (WF db) := by
  unfold WF
  exact inferInstance

/-- An operation whose input task (if any) carries a progress already in
[0, 100] — the side condition under which the range invariant holds, since
`addTask` stores the given progress unvalidated. -/
def addsInRange : Op → Bool
  | Op.add t => decide (0 ≤ t.progress) && decide (t.progress ≤ 100)
  | _ => true

/-- The project `Database::loadAllProjects` reconstructs from a project
row: name and description from the row; tasks rebuilt in row order; status
from the row when there are no tasks, otherwise re-derived by the last
`addTask` call's `updateProjectStatus` (the stored status is overwritten). -/
def loadedProject (db : DBState) (r : ProjectRow) : Project :=
  ⟨r.name, r.description,
    if (loadTasksFor db r.name).isEmpty then r.status
    else statusFromTasks ((loadTasksFor db r.name).map taskOfRow),
    (loadTasksFor db r.name).map taskOfRow⟩

/-! ### Shared helper lemmas -/

theorem statusFromTasks_eq_spec (ts : List Task) :
    statusFromTasks ts = specDerivedStatus ts := rfl

theorem updateProjectStatus_m_tasks (p : Project) :
    (Project.updateProjectStatus p).m_tasks = p.m_tasks := rfl

theorem updateProjectStatus_m_name (p : Project) :
    (Project.updateProjectStatus p).m_name = p.m_name := rfl

theorem updateProjectStatus_m_description (p : Project) :
    (Project.updateProjectStatus p).m_description = p.m_description := rfl

theorem updateProjectStatus_m_status (p : Project) :
    (Project.updateProjectStatus p).m_status = statusFromTasks p.m_tasks := rfl

theorem clamp01_nonneg (v : ℚ) : 0 ≤ clamp01 v := le_max_left 0 _

theorem clamp01_le_100 (v : ℚ) : clamp01 v ≤ 100 :=
  max_le (by norm_num) (min_le_left 100 v)

theorem any_name_eq_true {ts : List Task} {name : String} :
    (ts.any fun t => t.name == name) = true ↔ ∃ t ∈ ts, t.name = name := by
  simp [List.any_eq_true]

theorem addTask_ok {p : Project} {t : Task}
    (h : ∀ u ∈ p.m_tasks, u.name ≠ t.name) :
    p.addTask t =
      Except.ok (Project.updateProjectStatus { p with m_tasks := p.m_tasks ++ [t] }) := by
  unfold Project.addTask
  rw [if_neg]
  intro hcon
  rw [List.any_eq_true] at hcon
  obtain ⟨u, hu, hname⟩ := hcon
  exact h u hu (by simpa using hname)

theorem addTask_error {p : Project} {t : Task}
    (h : ∃ u ∈ p.m_tasks, u.name = t.name) :
    p.addTask t = Except.error "Task with this name already exists" := by
  unfold Project.addTask
  rw [if_pos]
  simpa [List.any_eq_true] using h

theorem mem_updateFirst {name : String} {v : ℚ} {ts : List Task} {t' : Task}
    (h : t' ∈ updateFirst name v ts) :
    t' ∈ ts ∨ (t'.progress = clamp01 v ∧
      t'.status = if (100 : ℚ) ≤ clamp01 v then ProjectStatus.COMPLETED
        else ProjectStatus.IN_PROGRESS) := by
  induction ts with
  | nil => simp [updateFirst] at h
  | cons hd tl ih =>
    rw [updateFirst] at h
    by_cases hb : hd.name == name
    · rw [if_pos hb] at h
      rcases List.mem_cons.mp h with h1 | h1
      · right
        subst h1
        exact ⟨rfl, rfl⟩
      · exact Or.inl (List.mem_cons_of_mem hd h1)
    · rw [if_neg hb] at h
      rcases List.mem_cons.mp h with h1 | h1
      · exact Or.inl (h1 ▸ List.mem_cons_self hd tl)
      · rcases ih h1 with h2 | h2
        · exact Or.inl (List.mem_cons_of_mem hd h2)
        · exact Or.inr h2

theorem mem_removeFirst {name : String} {ts : List Task} {t' : Task}
    (h : t' ∈ removeFirst name ts) : t' ∈ ts := by
  induction ts with
  | nil => simp [removeFirst] at h
  | cons hd tl ih =>
    rw [removeFirst] at h
    by_cases hb : hd.name == name
    · rw [if_pos hb] at h
      exact List.mem_cons_of_mem hd h
    · rw [if_neg hb] at h
      rcases List.mem_cons.mp h with h1 | h1
      · exact h1 ▸ List.mem_cons_self hd tl
      · exact List.mem_cons_of_mem hd (ih h1)

theorem updateFirst_exists {name : String} (v : ℚ) {ts : List Task}
    (h : ∃ t ∈ ts, t.name = name) :
    ∃ t' ∈ updateFirst name v ts, t'.name = name ∧ t'.progress = clamp01 v ∧
      t'.status = if (100 : ℚ) ≤ clamp01 v then ProjectStatus.COMPLETED
        else ProjectStatus.IN_PROGRESS := by
  induction ts with
  | nil => simp at h
  | cons hd tl ih =>
    by_cases hb : hd.name = name
    · refine ⟨⟨hd.name, hd.description,
          if (100 : ℚ) ≤ clamp01 v then ProjectStatus.COMPLETED
            else ProjectStatus.IN_PROGRESS,
          hd.deadline, clamp01 v⟩, ?_, hb, rfl, rfl⟩
      rw [updateFirst, if_pos (by simpa using hb)]
      exact List.mem_cons_self _ _
    · obtain ⟨t, ht, hname⟩ := h
      rcases List.mem_cons.mp ht with h1 | h1
      · exact absurd (h1 ▸ hname) hb
      · obtain ⟨t', ht', hfacts⟩ := ih ⟨t, h1, hname⟩
        refine ⟨t', ?_, hfacts⟩
        rw [updateFirst, if_neg (by simpa using hb)]
        exact List.mem_cons_of_mem hd ht'

theorem updateFirst_all_of_nodup {name : String} {v : ℚ} {ts : List Task}
    (hnd : (ts.map Task.name).Nodup) :
    ∀ t' ∈ updateFirst name v ts, t'.name = name →
      t'.progress = clamp01 v ∧
      t'.status = (if (100 : ℚ) ≤ clamp01 v then ProjectStatus.COMPLETED
        else ProjectStatus.IN_PROGRESS) := by
  induction ts with
  | nil => simp [updateFirst]
  | cons hd tl ih =>
    rw [List.map_cons, List.nodup_cons] at hnd
    intro t' ht' hname
    rw [updateFirst] at ht'
    by_cases hb : hd.name = name
    · rw [if_pos (by simpa using hb)] at ht'
      rcases List.mem_cons.mp ht' with h1 | h1
      · subst h1
        exact ⟨rfl, rfl⟩
      · exact absurd (List.mem_map_of_mem Task.name h1 :
          t'.name ∈ tl.map Task.name) (by rw [hname, ← hb] at *; exact hnd.1)
    · rw [if_neg (by simpa using hb)] at ht'
      rcases List.mem_cons.mp ht' with h1 | h1
      · exact absurd (h1 ▸ hname) hb
      · exact ih hnd.2 t' h1 hname

theorem updateTaskProgress_ok {p : Project} {name : String} {v : ℚ}
    (h : ∃ t ∈ p.m_tasks, t.name = name) :
    p.updateTaskProgress name v =
      Except.ok (Project.updateProjectStatus
        { p with m_tasks := updateFirst name v p.m_tasks }) := by
  unfold Project.updateTaskProgress
  rw [if_pos (any_name_eq_true.mpr h)]

theorem updateTaskProgress_error {p : Project} {name : String} {v : ℚ}
    (h : ∀ t ∈ p.m_tasks, t.name ≠ name) :
    p.updateTaskProgress name v = Except.error "Task not found" := by
  unfold Project.updateTaskProgress
  rw [if_neg]
  intro hcon
  obtain ⟨t, ht, hname⟩ := any_name_eq_true.mp hcon
  exact h t ht hname

/-! ### C1 -/

/-- C1: for every project whose task names are distinct (true of every
project built through `addTask`) and every task name present in it,
`updateTaskProgress(name, v)` succeeds and stores progress
`clamp01 v = max 0 (min 100 v)` for that task, with status COMPLETED when
the clamped value is ≥ 100 and IN_PROGRESS otherwise; when no task matches
the name it fails with the "Task not found" condition. -/
theorem C1_updateTaskProgress_clamps (p : Project) (name : String) (v : ℚ)
    (hnd : (p.m_tasks.map Task.name).Nodup) :
    ((∃ t ∈ p.m_tasks, t.name = name) →
      ∃ q, p.updateTaskProgress name v = Except.ok q ∧
        (∃ t' ∈ q.m_tasks, t'.name = name) ∧
        ∀ t' ∈ q.m_tasks, t'.name = name →
          t'.progress = clamp01 v ∧
          t'.status = (if (100 : ℚ) ≤ clamp01 v then ProjectStatus.COMPLETED
            else ProjectStatus.IN_PROGRESS)) ∧
    ((∀ t ∈ p.m_tasks, t.name ≠ name) →
      p.updateTaskProgress name v = Except.error "Task not found") := by
  constructor
  · intro h
    refine ⟨_, updateTaskProgress_ok h, ?_, ?_⟩
    · rw [updateProjectStatus_m_tasks]
      obtain ⟨t', ht', hn, _⟩ := updateFirst_exists v h
      exact ⟨t', ht', hn⟩
    · rw [updateProjectStatus_m_tasks]
      exact updateFirst_all_of_nodup hnd
  · exact updateTaskProgress_error

/-- Witness for C1 on a concrete project: one task named "a" at progress 0,
updated with 150, which is stored clamped to 100 and marked COMPLETED. -/
theorem C1_witness :
    ∃ q, Project.updateTaskProgress
        ⟨"P", "", ProjectStatus.NOT_STARTED, [⟨"a", "", ProjectStatus.NOT_STARTED, 0, 0⟩]⟩
        "a" 150 = Except.ok q ∧
      (∃ t' ∈ q.m_tasks, t'.name = "a") ∧
      ∀ t' ∈ q.m_tasks, t'.name = "a" →
        t'.progress = clamp01 150 ∧
        t'.status = (if (100 : ℚ) ≤ clamp01 150 then ProjectStatus.COMPLETED
          else ProjectStatus.IN_PROGRESS) :=
  (C1_updateTaskProgress_clamps
    ⟨"P", "", ProjectStatus.NOT_STARTED, [⟨"a", "", ProjectStatus.NOT_STARTED, 0, 0⟩]⟩
    "a" 150 (by decide)).1 (by decide)

/-! ### C2 -/

/-- C2 counterexample: `removeTask` of an absent name is a deliberate no-op
(project.cpp lines 146-156), so it does not re-derive the status: on a
task-free project whose status was set explicitly to PAUSED, invoking
`removeTask "x"` leaves the status PAUSED while the derived value is
NOT_STARTED — refuting the claim that the status equals the derived value
after every task mutation, removeTask included. -/
theorem C2_counterexample :
    (((Project.new "P" "").setProjectStatus ProjectStatus.PAUSED).removeTask "x").m_status ≠
      specDerivedStatus
        ((((Project.new "P" "").setProjectStatus ProjectStatus.PAUSED).removeTask "x").m_tasks) := by
  decide

/-- C2 amended: after a successful `addTask` or `updateTaskProgress`, and
after a `removeTask` whose task name is present, the project status equals
the spec's derived value; a `removeTask` on a missing name is a no-op that
leaves the project (its status included) unchanged. -/
theorem C2_status_derived_after_mutation (p : Project) (t : Task) (name : String) (v : ℚ) :
    (∀ q, p.addTask t = Except.ok q → q.m_status = specDerivedStatus q.m_tasks) ∧
    (∀ q, p.updateTaskProgress name v = Except.ok q →
      q.m_status = specDerivedStatus q.m_tasks) ∧
    ((∃ u ∈ p.m_tasks, u.name = name) →
      (p.removeTask name).m_status = specDerivedStatus (p.removeTask name).m_tasks) ∧
    ((∀ u ∈ p.m_tasks, u.name ≠ name) → p.removeTask name = p) := by
  refine ⟨?_, ?_, ?_, ?_⟩
  · intro q hq
    unfold Project.addTask at hq
    split at hq
    · cases hq
    · cases hq
      rw [updateProjectStatus_m_status, updateProjectStatus_m_tasks]
      rfl
  · intro q hq
    unfold Project.updateTaskProgress at hq
    split at hq
    · cases hq
      rw [updateProjectStatus_m_status, updateProjectStatus_m_tasks]
      rfl
    · cases hq
  · intro h
    unfold Project.removeTask
    rw [if_pos (any_name_eq_true.mpr h), updateProjectStatus_m_status,
      updateProjectStatus_m_tasks]
    rfl
  · intro h
    unfold Project.removeTask
    rw [if_neg]
    intro hcon
    obtain ⟨u, hu, hname⟩ := any_name_eq_true.mp hcon
    exact h u hu hname

/-- Witness for C2: on a concrete project with one completed task,
removing that task leaves the status equal to the derived value, and
removing a missing name is the identity. -/
theorem C2_witness :
    ((⟨"P", "", ProjectStatus.COMPLETED, [⟨"a", "", ProjectStatus.COMPLETED, 0, 100⟩]⟩ :
        Project).removeTask "a").m_status =
      specDerivedStatus
        (((⟨"P", "", ProjectStatus.COMPLETED, [⟨"a", "", ProjectStatus.COMPLETED, 0, 100⟩]⟩ :
          Project).removeTask "a").m_tasks) :=
  (C2_status_derived_after_mutation
    ⟨"P", "", ProjectStatus.COMPLETED, [⟨"a", "", ProjectStatus.COMPLETED, 0, 100⟩]⟩
    ⟨"b", "", ProjectStatus.NOT_STARTED, 0, 0⟩ "a" 0).2.2.1
    ⟨⟨"a", "", ProjectStatus.COMPLETED, 0, 100⟩, by decide, rfl⟩

/-! ### C3 -/

/-- C3 counterexample: `Project::addTask` compares task names with exact
`==` (project.cpp lines 47-50), not case-insensitively.  Adding "A" and
then "a" — equal under NOCASE — therefore succeeds instead of failing with
a duplicate-task condition, and both tasks end up stored. -/
theorem C3_counterexample :
    eqNoCase "A" "a" = true ∧
    (((Project.new "P" "").addTask ⟨"A", "", ProjectStatus.NOT_STARTED, 0, 0⟩).bind
        fun q => q.addTask ⟨"a", "", ProjectStatus.NOT_STARTED, 0, 0⟩) =
      Except.ok ⟨"P", "",
        statusFromTasks [⟨"A", "", ProjectStatus.NOT_STARTED, 0, 0⟩,
          ⟨"a", "", ProjectStatus.NOT_STARTED, 0, 0⟩],
        [⟨"A", "", ProjectStatus.NOT_STARTED, 0, 0⟩,
          ⟨"a", "", ProjectStatus.NOT_STARTED, 0, 0⟩]⟩ :=
  ⟨rfl, rfl⟩

/-- C3 amended: `addTask` fails with the duplicate-task condition exactly
when a task with the very same name (case-sensitive comparison) already
exists, leaving the project unchanged on failure (strong guarantee);
otherwise the task is appended at the end of the task list. -/
theorem C3_addTask_duplicates_case_sensitive (p : Project) (t : Task) :
    ((∃ u ∈ p.m_tasks, u.name = t.name) →
      p.addTask t = Except.error "Task with this name already exists" ∧
      applyOp p (Op.add t) = p) ∧
    ((∀ u ∈ p.m_tasks, u.name ≠ t.name) →
      ∃ q, p.addTask t = Except.ok q ∧ q.m_tasks = p.m_tasks ++ [t] ∧
        q.m_name = p.m_name ∧ q.m_description = p.m_description) := by
  constructor
  · intro h
    have he := addTask_error h
    refine ⟨he, ?_⟩
    simp only [applyOp, he]
  · intro h
    exact ⟨_, addTask_ok h, updateProjectStatus_m_tasks _,
      updateProjectStatus_m_name _, updateProjectStatus_m_description _⟩

/-- Witness for C3: adding a task whose exact name is already present
fails and leaves the project unchanged. -/
theorem C3_witness :
    (⟨"P", "", ProjectStatus.NOT_STARTED, [⟨"a", "", ProjectStatus.NOT_STARTED, 0, 0⟩]⟩ :
        Project).addTask ⟨"a", "x", ProjectStatus.NOT_STARTED, 0, 50⟩ =
      Except.error "Task with this name already exists" ∧
    applyOp
        ⟨"P", "", ProjectStatus.NOT_STARTED, [⟨"a", "", ProjectStatus.NOT_STARTED, 0, 0⟩]⟩
        (Op.add ⟨"a", "x", ProjectStatus.NOT_STARTED, 0, 50⟩) =
      ⟨"P", "", ProjectStatus.NOT_STARTED, [⟨"a", "", ProjectStatus.NOT_STARTED, 0, 0⟩]⟩ :=
  (C3_addTask_duplicates_case_sensitive
    ⟨"P", "", ProjectStatus.NOT_STARTED, [⟨"a", "", ProjectStatus.NOT_STARTED, 0, 0⟩]⟩
    ⟨"a", "x", ProjectStatus.NOT_STARTED, 0, 50⟩).1
    ⟨⟨"a", "", ProjectStatus.NOT_STARTED, 0, 0⟩, by decide, rfl⟩

/-! ### C4 -/

/-- C4 counterexample: `Project::addTask` stores the given task without
clamping its progress (project.cpp lines 45-58), so a single public
operation on a fresh project yields a stored task with progress 150,
outside [0, 100] — refuting the claim that every operation that stores a
task clamps progress first. -/
theorem C4_counterexample :
    ∃ t ∈ (applyOps (Project.new "P" "")
        [Op.add ⟨"A", "", ProjectStatus.NOT_STARTED, 0, 150⟩]).m_tasks,
      ¬ (0 ≤ t.progress ∧ t.progress ≤ 100) := by
  decide

theorem addTask_ok_m_tasks {p : Project} {t : Task} {q : Project}
    (h : p.addTask t = Except.ok q) : q.m_tasks = p.m_tasks ++ [t] := by
  unfold Project.addTask at h
  split at h
  · cases h
  · cases h
    exact updateProjectStatus_m_tasks _

theorem updateTaskProgress_ok_m_tasks {p : Project} {name : String} {v : ℚ} {q : Project}
    (h : p.updateTaskProgress name v = Except.ok q) :
    q.m_tasks = updateFirst name v p.m_tasks := by
  unfold Project.updateTaskProgress at h
  split at h
  · cases h
    exact updateProjectStatus_m_tasks _
  · cases h

theorem removeTask_m_tasks (p : Project) (name : String) :
    (p.removeTask name).m_tasks = removeFirst name p.m_tasks ∨
    (p.removeTask name).m_tasks = p.m_tasks := by
  unfold Project.removeTask
  split
  · exact Or.inl (updateProjectStatus_m_tasks _)
  · exact Or.inr rfl

theorem applyOp_progress_in_range {p : Project}
    (hp : ∀ t ∈ p.m_tasks, 0 ≤ t.progress ∧ t.progress ≤ 100)
    {op : Op} (hop : addsInRange op = true) :
    ∀ t ∈ (applyOp p op).m_tasks, 0 ≤ t.progress ∧ t.progress ≤ 100 := by
  cases op with
  | add u =>
    simp only [applyOp]
    split
    · rename_i q hq
      rw [addTask_ok_m_tasks hq]
      intro t ht
      rcases List.mem_append.mp ht with h1 | h1
      · exact hp t h1
      · rw [List.mem_singleton.mp h1]
        simpa [addsInRange, decide_eq_true_eq] using hop
    · exact hp
  | update name v =>
    simp only [applyOp]
    split
    · rename_i q hq
      rw [updateTaskProgress_ok_m_tasks hq]
      intro t ht
      rcases mem_updateFirst ht with h1 | h1
      · exact hp t h1
      · exact h1.1 ▸ ⟨clamp01_nonneg v, clamp01_le_100 v⟩
    · exact hp
  | remove name =>
    simp only [applyOp]
    intro t ht
    rcases removeTask_m_tasks p name with h1 | h1 <;> rw [h1] at ht
    · exact hp t (mem_removeFirst ht)
    · exact hp t ht
  | setStatus s => exact hp

/-- C4 amended: `updateTaskProgress` always clamps, but `addTask` stores
the supplied progress unvalidated; hence every project reachable from a
fresh `Project` by public operations whose added tasks already carry
progress in [0, 100] has all stored task progresses in [0, 100]. -/
theorem C4_progress_invariant (n d : String) (ops : List Op)
    (h : ∀ op ∈ ops, addsInRange op = true) :
    ∀ t ∈ (applyOps (Project.new n d) ops).m_tasks,
      0 ≤ t.progress ∧ t.progress ≤ 100 := by
  have main : ∀ (ops' : List Op) (p : Project),
      (∀ op ∈ ops', addsInRange op = true) →
      (∀ t ∈ p.m_tasks, 0 ≤ t.progress ∧ t.progress ≤ 100) →
      ∀ t ∈ (applyOps p ops').m_tasks, 0 ≤ t.progress ∧ t.progress ≤ 100 := by
    intro ops'
    induction ops' with
    | nil => intro p _ hp; exact hp
    | cons op rest ih =>
      intro p hops hp
      exact ih (applyOp p op) (fun o ho => hops o (List.mem_cons_of_mem op ho))
        (applyOp_progress_in_range hp (hops op (List.mem_cons_self op rest)))
  exact main ops (Project.new n d) h (by simp [Project.new])

/-- Witness for C4: a fresh project taken through an in-range add followed
by an out-of-range update request stores the task clamped to 100, and that
stored task's progress is within [0, 100]. -/
theorem C4_witness :
    (⟨"a", "", ProjectStatus.COMPLETED, 0, 100⟩ : Task) ∈
      (applyOps (Project.new "P" "")
        [Op.add ⟨"a", "", ProjectStatus.NOT_STARTED, 0, 50⟩,
          Op.update "a" 250, Op.remove "b",
          Op.setStatus ProjectStatus.PAUSED]).m_tasks ∧
    0 ≤ (⟨"a", "", ProjectStatus.COMPLETED, 0, 100⟩ : Task).progress ∧
    (⟨"a", "", ProjectStatus.COMPLETED, 0, 100⟩ : Task).progress ≤ 100 :=
  ⟨by decide,
    C4_progress_invariant "P" ""
      [Op.add ⟨"a", "", ProjectStatus.NOT_STARTED, 0, 50⟩,
        Op.update "a" 250, Op.remove "b", Op.setStatus ProjectStatus.PAUSED]
      (by decide) ⟨"a", "", ProjectStatus.COMPLETED, 0, 100⟩ (by decide)⟩

/-! ### C10 -/

theorem addTask_ok_m_name {p : Project} {t : Task} {q : Project}
    (h : p.addTask t = Except.ok q) :
    q.m_name = p.m_name ∧ q.m_description = p.m_description := by
  unfold Project.addTask at h
  split at h
  · cases h
  · cases h
    exact ⟨updateProjectStatus_m_name _, updateProjectStatus_m_description _⟩

theorem updateTaskProgress_ok_m_name {p : Project} {name : String} {v : ℚ} {q : Project}
    (h : p.updateTaskProgress name v = Except.ok q) :
    q.m_name = p.m_name ∧ q.m_description = p.m_description := by
  unfold Project.updateTaskProgress at h
  split at h
  · cases h
    exact ⟨updateProjectStatus_m_name _, updateProjectStatus_m_description _⟩
  · cases h

theorem applyOp_frame (p : Project) (op : Op) :
    (applyOp p op).m_name = p.m_name ∧ (applyOp p op).m_description = p.m_description := by
  cases op with
  | add t =>
    simp only [applyOp]
    split
    · rename_i q hq
      exact addTask_ok_m_name hq
    · exact ⟨rfl, rfl⟩
  | update name v =>
    simp only [applyOp]
    split
    · rename_i q hq
      exact updateTaskProgress_ok_m_name hq
    · exact ⟨rfl, rfl⟩
  | remove name =>
    simp only [applyOp]
    unfold Project.removeTask
    split
    · exact ⟨updateProjectStatus_m_name _, updateProjectStatus_m_description _⟩
    · exact ⟨rfl, rfl⟩
  | setStatus s => exact ⟨rfl, rfl⟩

/-- C10: no sequence of the public task-mutating operations (nor
`setProjectStatus`) ever changes a project's name or description —
`getName`/`getDescription` still return the construction arguments. -/
theorem C10_name_description_frame (n d : String) (ops : List Op) :
    (applyOps (Project.new n d) ops).getName = n ∧
    (applyOps (Project.new n d) ops).getDescription = d := by
  have main : ∀ (ops' : List Op) (p : Project),
      (applyOps p ops').m_name = p.m_name ∧
      (applyOps p ops').m_description = p.m_description := by
    intro ops'
    induction ops' with
    | nil => intro p; exact ⟨rfl, rfl⟩
    | cons op rest ih =>
      intro p
      have h1 := ih (applyOp p op)
      have h2 := applyOp_frame p op
      exact ⟨h1.1.trans h2.1, h1.2.trans h2.2⟩
  exact main ops (Project.new n d)

/-! ### Database load lemmas -/

theorem eqNoCase_refl (s : String) : eqNoCase s s = true := by
  simp [eqNoCase]

theorem eqNoCase_eq_true {s t : String} :
    eqNoCase s t = true ↔ nocaseKey s = nocaseKey t := by
  simp [eqNoCase]

theorem map_name_taskOfRow (rows : List TaskRow) :
    (rows.map taskOfRow).map Task.name = rows.map TaskRow.task_name := by
  rw [List.map_map]
  rfl

theorem addLoadedTasks_ok (rows : List TaskRow) :
    ∀ (acc : Project),
      ((acc.m_tasks ++ rows.map taskOfRow).map Task.name).Nodup →
      ∃ q, addLoadedTasks acc rows = Except.ok q ∧
        q.m_name = acc.m_name ∧ q.m_description = acc.m_description ∧
        q.m_tasks = acc.m_tasks ++ rows.map taskOfRow ∧
        q.m_status = (if rows.isEmpty then acc.m_status
          else statusFromTasks (acc.m_tasks ++ rows.map taskOfRow)) := by
  induction rows with
  | nil =>
    intro acc _
    exact ⟨acc, rfl, rfl, rfl, by simp, by simp⟩
  | cons row rest ih =>
    intro acc hnd
    have hnotin : ∀ u ∈ acc.m_tasks, u.name ≠ (taskOfRow row).name := by
      rw [List.map_append, List.nodup_append] at hnd
      intro u hu hcon
      exact hnd.2.2 (List.mem_map_of_mem Task.name hu)
        (by rw [hcon]; simp)
    have hok := addTask_ok hnotin
    have hnd' : (((Project.updateProjectStatus
        { acc with m_tasks := acc.m_tasks ++ [taskOfRow row] }).m_tasks ++
          rest.map taskOfRow).map Task.name).Nodup := by
      rw [updateProjectStatus_m_tasks, List.append_assoc]
      simpa using hnd
    obtain ⟨q, hq, hname, hdesc, htasks, hstatus⟩ :=
      ih (Project.updateProjectStatus { acc with m_tasks := acc.m_tasks ++ [taskOfRow row] }) hnd'
    refine ⟨q, ?_, ?_, ?_, ?_, ?_⟩
    · rw [addLoadedTasks]
      rw [hok]
      simpa using hq
    · exact hname.trans (updateProjectStatus_m_name _)
    · exact hdesc.trans (updateProjectStatus_m_description _)
    · rw [htasks, updateProjectStatus_m_tasks, List.append_assoc]
      simp
    · rw [hstatus]
      cases rest with
      | nil =>
        simp [updateProjectStatus_m_status, updateProjectStatus_m_tasks]
      | cons r2 rest2 =>
        rw [if_neg (by simp), if_neg (by simp), updateProjectStatus_m_tasks,
          List.append_assoc]
        simp

theorem loadOneProject_eq (db : DBState) (r : ProjectRow)
    (hnd : ((loadTasksFor db r.name).map TaskRow.task_name).Nodup) :
    loadOneProject db r = Except.ok (loadedProject db r) := by
  obtain ⟨q, hq, hname, hdesc, htasks, hstatus⟩ :=
    addLoadedTasks_ok (loadTasksFor db r.name)
      ((Project.new r.name r.description).setProjectStatus r.status)
      (by simpa [map_name_taskOfRow, Project.new, Project.setProjectStatus] using hnd)
  rw [loadOneProject, hq]
  obtain ⟨a, b, c, d⟩ := q
  simp only [Project.new, Project.setProjectStatus] at hname hdesc htasks hstatus
  subst hname hdesc htasks hstatus
  simp [loadedProject]

theorem loadProjectsList_eq (db : DBState) (rs : List ProjectRow)
    (h : ∀ r ∈ rs, loadOneProject db r = Except.ok (loadedProject db r)) :
    loadProjectsList db rs = Except.ok (rs.map (loadedProject db)) := by
  induction rs with
  | nil => rfl
  | cons r rest ih =>
    rw [loadProjectsList, h r (List.mem_cons_self r rest),
      ih fun r' hr' => h r' (List.mem_cons_of_mem r hr')]
    rfl

theorem loadAllProjects_eq (db : DBState) (hwf : WF db) :
    Database.loadAllProjects db = Except.ok (db.projects.map (loadedProject db)) :=
  loadProjectsList_eq db db.projects fun r hr => loadOneProject_eq db r (hwf.2.2 r hr)

/-! ### C5 -/

theorem eqNoCase_eq_false {s t : String} :
    eqNoCase s t = false ↔ nocaseKey s ≠ nocaseKey t := by
  simp [eqNoCase]

theorem loadedProject_congr {db db' : DBState} {r : ProjectRow}
    (h : loadTasksFor db' r.name = loadTasksFor db r.name) :
    loadedProject db' r = loadedProject db r := by
  simp [loadedProject, h]

theorem map_task_name_taskRowOf (n : String) (ts : List Task) :
    (ts.map (taskRowOf n)).map TaskRow.task_name = ts.map Task.name := by
  rw [List.map_map]
  rfl

theorem map_taskOfRow_taskRowOf (n : String) (ts : List Task) :
    (ts.map (taskRowOf n)).map taskOfRow = ts := by
  rw [List.map_map]
  have h : (taskOfRow ∘ taskRowOf n) = id := funext fun t => rfl
  rw [h, List.map_id]

/-- C5 counterexample: insert a project whose status was set explicitly to
PAUSED while its single task is complete.  `loadAllProjects` applies the
stored status first and then re-derives the status inside `addTask`, so
the loaded project comes back COMPLETED — name, description and tasks
round-trip, but the explicitly-set status does not. -/
theorem C5_counterexample :
    (Database.insertProject ⟨[], []⟩
      ⟨"A", "", ProjectStatus.PAUSED, [⟨"T", "", ProjectStatus.COMPLETED, 0, 100⟩]⟩).2 =
        none ∧
    Database.loadAllProjects
      (Database.insertProject ⟨[], []⟩
        ⟨"A", "", ProjectStatus.PAUSED, [⟨"T", "", ProjectStatus.COMPLETED, 0, 100⟩]⟩).1 =
      Except.ok
        [⟨"A", "", ProjectStatus.COMPLETED, [⟨"T", "", ProjectStatus.COMPLETED, 0, 100⟩]⟩] ∧
    ProjectStatus.COMPLETED ≠ ProjectStatus.PAUSED :=
  ⟨rfl, by rfl, by decide⟩

theorem loadedProject_row_of_project {db' : DBState} {p : Project}
    (htf : loadTasksFor db' p.m_name = p.m_tasks.map (taskRowOf p.m_name)) :
    loadedProject db' ⟨p.m_name, p.m_description, p.m_status⟩ =
      ⟨p.m_name, p.m_description,
        if p.m_tasks.isEmpty then p.m_status else statusFromTasks p.m_tasks,
        p.m_tasks⟩ := by
  unfold loadedProject
  simp only [htf, map_taskOfRow_taskRowOf, Project.mk.injEq, true_and, and_true]
  cases hl : p.m_tasks with
  | nil => simp
  | cons t ts => rfl

theorem load_after_insert_aux (db db' : DBState) (p : Project)
    (hwf : WF db)
    (hnodup : (p.m_tasks.map Task.name).Nodup)
    (hproj : db'.projects = db.projects ++ [⟨p.m_name, p.m_description, p.m_status⟩])
    (htfOld : ∀ r ∈ db.projects, loadTasksFor db' r.name = loadTasksFor db r.name)
    (htfNew : loadTasksFor db' p.m_name = p.m_tasks.map (taskRowOf p.m_name)) :
    ∃ ps, Database.loadAllProjects db' = Except.ok ps ∧
      ∃ q ∈ ps, q.m_name = p.m_name ∧ q.m_description = p.m_description ∧
        q.m_tasks = p.m_tasks ∧
        ((p.m_tasks = [] ∨ p.m_status = specDerivedStatus p.m_tasks) →
          q.m_status = p.m_status) := by
  refine ⟨db'.projects.map (loadedProject db'), ?_, ?_⟩
  · apply loadProjectsList_eq
    intro r hr
    rw [hproj] at hr
    rcases List.mem_append.mp hr with hold | hnew
    · apply loadOneProject_eq
      rw [htfOld r hold]
      exact hwf.2.2 r hold
    · rw [List.mem_singleton.mp hnew]
      apply loadOneProject_eq
      show ((loadTasksFor db' p.m_name).map TaskRow.task_name).Nodup
      rw [htfNew, map_task_name_taskRowOf]
      exact hnodup
  · refine ⟨loadedProject db' ⟨p.m_name, p.m_description, p.m_status⟩, ?_, ?_⟩
    · rw [hproj]
      exact List.mem_map_of_mem _
        (List.mem_append_right _ (List.mem_singleton.mpr rfl))
    · rw [loadedProject_row_of_project htfNew]
      refine ⟨rfl, rfl, rfl, ?_⟩
      intro hstatus
      show (if p.m_tasks.isEmpty then p.m_status else statusFromTasks p.m_tasks) =
        p.m_status
      by_cases he : p.m_tasks = []
      · rw [he]
        simp
      · have hne : p.m_tasks.isEmpty = false := by
          cases hl : p.m_tasks with
          | nil => exact absurd hl he
          | cons t ts => rfl
        rw [hne]
        simp only [Bool.false_eq_true, if_false]
        rcases hstatus with hempty | hderived
        · exact absurd hempty he
        · rw [statusFromTasks_eq_spec, ← hderived]

/-- C5 amended: on a well-formed store, inserting a project with distinct
task names and no NOCASE name clash succeeds, and `loadAll` then contains
a project equal to it in name, description and task list — unconditionally
on the status; the status also round-trips whenever the project has no
tasks or its status equals the derived status of its task set, while an
explicitly-set status of a task-bearing project is overwritten on load
with the derived one. -/
theorem C5_insert_loadAll_roundtrip (db : DBState) (p : Project)
    (hwf : WF db)
    (hnodup : (p.m_tasks.map Task.name).Nodup)
    (hfresh : ∀ r ∈ db.projects, eqNoCase r.name p.m_name = false) :
    ∃ db' ps, Database.insertProject db p = (db', none) ∧
      Database.loadAllProjects db' = Except.ok ps ∧
      ∃ q ∈ ps, q.m_name = p.m_name ∧ q.m_description = p.m_description ∧
        q.m_tasks = p.m_tasks ∧
        ((p.m_tasks = [] ∨ p.m_status = specDerivedStatus p.m_tasks) →
          q.m_status = p.m_status) := by
  have hany : (db.projects.any fun r => eqNoCase r.name p.getName) = false := by
    rw [List.any_eq_false]
    intro r hr
    simp [hfresh r hr, Project.getName]
  have hins : Database.insertProject db p =
      ({ projects := db.projects ++ [⟨p.getName, p.getDescription, p.getStatus⟩],
         tasks := db.tasks ++ p.getTasks.map (taskRowOf p.getName) }, none) := by
    rw [Database.insertProject, hany]
    simp
  have hnewnil : ∀ (s : String), nocaseKey s ≠ nocaseKey p.m_name →
      (p.getTasks.map (taskRowOf p.getName)).filter
        (fun tr => eqNoCase tr.project_name s) = [] := by
    intro s hs
    rw [List.filter_eq_nil_iff]
    intro tr htr
    obtain ⟨t, _, rfl⟩ := List.mem_map.mp htr
    simp only [taskRowOf, Bool.not_eq_true]
    rw [eqNoCase_eq_false]
    exact fun hcon => hs hcon.symm
  have htfOld : ∀ r ∈ db.projects,
      loadTasksFor
        ⟨db.projects ++ [⟨p.getName, p.getDescription, p.getStatus⟩],
          db.tasks ++ p.getTasks.map (taskRowOf p.getName)⟩ r.name =
      loadTasksFor db r.name := by
    intro r hr
    show (db.tasks ++ p.getTasks.map (taskRowOf p.getName)).filter
        (fun tr => eqNoCase tr.project_name r.name) = loadTasksFor db r.name
    rw [List.filter_append, hnewnil r.name (eqNoCase_eq_false.mp (hfresh r hr)),
      List.append_nil]
    rfl
  have htfNew : loadTasksFor
      ⟨db.projects ++ [⟨p.getName, p.getDescription, p.getStatus⟩],
        db.tasks ++ p.getTasks.map (taskRowOf p.getName)⟩ p.m_name =
      p.m_tasks.map (taskRowOf p.m_name) := by
    show (db.tasks ++ p.getTasks.map (taskRowOf p.getName)).filter
        (fun tr => eqNoCase tr.project_name p.m_name) =
      p.m_tasks.map (taskRowOf p.m_name)
    rw [List.filter_append]
    have hnil : db.tasks.filter (fun tr => eqNoCase tr.project_name p.m_name) = [] := by
      rw [List.filter_eq_nil_iff]
      intro tr htr
      obtain ⟨pr, hpr, howner⟩ := hwf.2.1 tr htr
      simp only [Bool.not_eq_true]
      rw [eqNoCase_eq_false]
      intro hcon
      have h1 : nocaseKey tr.project_name = nocaseKey pr.name :=
        eqNoCase_eq_true.mp howner
      exact eqNoCase_eq_false.mp (hfresh pr hpr) (h1 ▸ hcon)
    have hall : (p.getTasks.map (taskRowOf p.getName)).filter
        (fun tr => eqNoCase tr.project_name p.m_name) =
        p.getTasks.map (taskRowOf p.getName) := by
      rw [List.filter_eq_self]
      intro tr htr
      obtain ⟨t, _, rfl⟩ := List.mem_map.mp htr
      exact eqNoCase_refl p.m_name
    rw [hnil, hall, List.nil_append]
    rfl
  obtain ⟨ps, hload, hq⟩ := load_after_insert_aux db
    ⟨db.projects ++ [⟨p.getName, p.getDescription, p.getStatus⟩],
      db.tasks ++ p.getTasks.map (taskRowOf p.getName)⟩ p
    hwf hnodup rfl htfOld htfNew
  exact ⟨_, ps, hins, hload, hq⟩

/-- Witness for C5: a fresh store and a concrete one-task project whose
status is the derived one round-trip exactly, the status included. -/
theorem C5_witness :
    ∃ db' ps, Database.insertProject ⟨[], []⟩
        ⟨"A", "d", ProjectStatus.COMPLETED, [⟨"T", "x", ProjectStatus.COMPLETED, 7, 100⟩]⟩ =
        (db', none) ∧
      Database.loadAllProjects db' = Except.ok ps ∧
      ∃ q ∈ ps, q.m_name = "A" ∧ q.m_description = "d" ∧
        q.m_tasks = [⟨"T", "x", ProjectStatus.COMPLETED, 7, 100⟩] ∧
        q.m_status = ProjectStatus.COMPLETED := by
  obtain ⟨db', ps, h1, h2, q, hq, hn, hd, ht, hs⟩ :=
    C5_insert_loadAll_roundtrip ⟨[], []⟩
      ⟨"A", "d", ProjectStatus.COMPLETED, [⟨"T", "x", ProjectStatus.COMPLETED, 7, 100⟩]⟩
      (by decide) (by decide) (by decide)
  exact ⟨db', ps, h1, h2, q, hq, hn, hd, ht, hs (Or.inr (by decide))⟩

/-! ### C6 -/

theorem count_nocase_one {rows : List ProjectRow} {n : String}
    (hnd : (rows.map fun r => nocaseKey r.name).Nodup)
    (hex : ∃ r ∈ rows, eqNoCase r.name n = true) :
    (rows.filter fun r => eqNoCase r.name n).length = 1 := by
  induction rows with
  | nil => simp at hex
  | cons r rest ih =>
    rw [List.map_cons, List.nodup_cons] at hnd
    by_cases hb : eqNoCase r.name n = true
    · rw [List.filter_cons]
      simp only [hb, if_true]
      have hrest : rest.filter (fun r' => eqNoCase r'.name n) = [] := by
        rw [List.filter_eq_nil_iff]
        intro r' hr' hcon
        have hkey : nocaseKey r'.name = nocaseKey r.name :=
          (eqNoCase_eq_true.mp hcon).trans (eqNoCase_eq_true.mp hb).symm
        exact hnd.1 (hkey ▸ List.mem_map_of_mem (fun x => nocaseKey x.name) hr')
      rw [hrest]
      rfl
    · rw [List.filter_cons]
      have hb' : eqNoCase r.name n = false := by
        revert hb
        cases eqNoCase r.name n <;> simp
      simp only [hb', Bool.false_eq_true, if_false]
      apply ih hnd.2
      obtain ⟨r', hr', heq⟩ := hex
      rcases List.mem_cons.mp hr' with h1 | h1
      · exact absurd (h1 ▸ heq) hb
      · exact ⟨r', h1, heq⟩

/-- C6: creating a project whose name already exists in any case variant
fails — `insertProject` hits the NOCASE primary key, rolls the transaction
back, and `ProjectManager::createProject` converts the exception to
`false` — and the store is unchanged, still holding exactly one project
with that (NOCASE) name. -/
theorem C6_duplicate_createProject (db : DBState) (n d : String)
    (hwf : WF db)
    (hex : ∃ r ∈ db.projects, eqNoCase r.name n = true) :
    ProjectManager.createProject db n d = (false, db) ∧
    (db.projects.filter fun r => eqNoCase r.name n).length = 1 := by
  refine ⟨?_, count_nocase_one hwf.1 hex⟩
  have hany : (db.projects.any fun r => eqNoCase r.name (Project.new n d).getName) = true := by
    rw [List.any_eq_true]
    obtain ⟨r, hr, heq⟩ := hex
    exact ⟨r, hr, heq⟩
  have hins : Database.insertProject db (Project.new n d) =
      (db, some "Failed to insert project: UNIQUE constraint failed: projects.name") := by
    rw [Database.insertProject, if_pos hany]
  rw [ProjectManager.createProject, hins]

/-- Witness for C6: a store holding "Alpha"; creating "ALPHA" fails and the
store keeps exactly one such project. -/
theorem C6_witness :
    ProjectManager.createProject ⟨[⟨"Alpha", "", ProjectStatus.NOT_STARTED⟩], []⟩
        "ALPHA" "d" =
      (false, ⟨[⟨"Alpha", "", ProjectStatus.NOT_STARTED⟩], []⟩) ∧
    ((⟨[⟨"Alpha", "", ProjectStatus.NOT_STARTED⟩], []⟩ : DBState).projects.filter
      fun r => eqNoCase r.name "ALPHA").length = 1 :=
  C6_duplicate_createProject ⟨[⟨"Alpha", "", ProjectStatus.NOT_STARTED⟩], []⟩
    "ALPHA" "d" (by decide)
    ⟨⟨"Alpha", "", ProjectStatus.NOT_STARTED⟩, by decide, by decide⟩

/-! ### C7 -/

theorem filter_filter_sublist {α : Type} (l : List α) (p q : α → Bool) :
    List.Sublist ((l.filter p).filter q) (l.filter q) :=
  List.Sublist.filter q (List.filter_sublist l)

/-- C7: `deleteProject` fails with "Project does not exist" (store
untouched) when no NOCASE match exists, the check preceding any mutation;
with a fault injected in either DELETE statement the transaction is rolled
back — the store is exactly the pre-state — and the error is re-raised
wrapped in "Failed to delete project: "; on the fault-free path both the
project rows and the task rows matching the name are gone, `projectExists`
is false afterwards, and `loadAllProjects` yields only projects whose
names do not match the deleted one. -/
theorem C7_deleteProject_transactional (db : DBState) (n : String)
    (fault : Option Bool) (hwf : WF db) :
    (Database.projectExists db n = false →
      Database.deleteProject db n fault = (db, some "Project does not exist")) ∧
    (Database.projectExists db n = true → ∀ k, fault = some k →
      ∃ msg, Database.deleteProject db n fault =
        (db, some ("Failed to delete project: " ++ msg))) ∧
    (Database.projectExists db n = true →
      ∃ db', Database.deleteProject db n none = (db', none) ∧
        Database.projectExists db' n = false ∧
        (∀ r ∈ db'.projects, eqNoCase r.name n = false) ∧
        (∀ tr ∈ db'.tasks, eqNoCase tr.project_name n = false) ∧
        ∃ ps, Database.loadAllProjects db' = Except.ok ps ∧
          ∀ q ∈ ps, eqNoCase q.getName n = false) := by
  refine ⟨?_, ?_, ?_⟩
  · intro h
    rw [Database.deleteProject.eq_def, if_pos]
    rw [h]
    simp
  · intro h k hk
    subst hk
    rw [Database.deleteProject.eq_def, if_neg (by rw [h]; simp)]
    cases k with
    | false => exact ⟨"Failed to delete project from database", rfl⟩
    | true => exact ⟨"Failed to delete project tasks from database", rfl⟩
  · intro h
    refine ⟨⟨db.projects.filter fun r => ! eqNoCase r.name n,
        db.tasks.filter fun tr => ! eqNoCase tr.project_name n⟩, ?_, ?_, ?_, ?_, ?_⟩
    · rw [Database.deleteProject.eq_def, if_neg (by rw [h]; simp)]
    · rw [Database.projectExists]
      rw [List.any_eq_false]
      intro r hr
      have hmem := List.mem_filter.mp hr
      simpa using hmem.2
    · intro r hr
      have hmem := List.mem_filter.mp hr
      simpa using hmem.2
    · intro tr htr
      have hmem := List.mem_filter.mp htr
      simpa using hmem.2
    · refine ⟨_, loadProjectsList_eq _ _ ?_, ?_⟩
      · intro r hr
        apply loadOneProject_eq
        have hrdb : r ∈ db.projects := (List.mem_filter.mp hr).1
        have hsub : List.Sublist
            (loadTasksFor
              ⟨db.projects.filter fun r' => ! eqNoCase r'.name n,
                db.tasks.filter fun tr => ! eqNoCase tr.project_name n⟩ r.name)
            (loadTasksFor db r.name) :=
          filter_filter_sublist db.tasks _ _
        exact (hwf.2.2 r hrdb).sublist (hsub.map TaskRow.task_name)
      · intro q hq
        obtain ⟨r, hr, rfl⟩ := List.mem_map.mp hq
        have hmem := List.mem_filter.mp hr
        simpa [loadedProject, Project.getName] using hmem.2

/-- Witness for C7: deleting "a" from a store holding project "A" with one
task removes both rows; the loaded view is empty. -/
theorem C7_witness :
    ∃ db', Database.deleteProject
        ⟨[⟨"A", "", ProjectStatus.NOT_STARTED⟩],
          [⟨"A", "T", "", ProjectStatus.NOT_STARTED, 0, 0⟩]⟩ "a" none = (db', none) ∧
      Database.projectExists db' "a" = false ∧
      (∀ r ∈ db'.projects, eqNoCase r.name "a" = false) ∧
      (∀ tr ∈ db'.tasks, eqNoCase tr.project_name "a" = false) ∧
      ∃ ps, Database.loadAllProjects db' = Except.ok ps ∧
        ∀ q ∈ ps, eqNoCase q.getName "a" = false :=
  (C7_deleteProject_transactional
    ⟨[⟨"A", "", ProjectStatus.NOT_STARTED⟩],
      [⟨"A", "T", "", ProjectStatus.NOT_STARTED, 0, 0⟩]⟩ "a" none (by decide)).2.2
    (by decide)

/-! ### C8 -/

/-- C8: `Database::updateProject` (database.cpp lines 169-215) opens no
transaction, and it passes the metadata UPDATE's `sqlite3_step` result
(SQLITE_DONE) to `handleSQLiteError`, which throws on anything other than
SQLITE_OK.  Every call therefore throws right after the metadata UPDATE
took effect: the store keeps the new description and status while the old
task rows remain and the delete-then-reinsert phase never runs — a visible
partial write on failure, where the claim (and the spec's MUST) requires
one transaction leaving the pre-operation state. -/
theorem C8_updateProject_not_transactional :
    sqliteDONE ≠ sqliteOK ∧
    Database.updateProject
        ⟨[⟨"A", "d0", ProjectStatus.NOT_STARTED⟩],
          [⟨"A", "T", "", ProjectStatus.NOT_STARTED, 0, 0⟩]⟩
        ⟨"A", "d1", ProjectStatus.COMPLETED, [⟨"T", "", ProjectStatus.COMPLETED, 0, 100⟩]⟩ =
      (⟨[⟨"A", "d1", ProjectStatus.COMPLETED⟩],
        [⟨"A", "T", "", ProjectStatus.NOT_STARTED, 0, 0⟩]⟩,
       some "Failed to update project") ∧
    (⟨[⟨"A", "d1", ProjectStatus.COMPLETED⟩],
      [⟨"A", "T", "", ProjectStatus.NOT_STARTED, 0, 0⟩]⟩ : DBState) ≠
      ⟨[⟨"A", "d0", ProjectStatus.NOT_STARTED⟩],
        [⟨"A", "T", "", ProjectStatus.NOT_STARTED, 0, 0⟩]⟩ := by
  refine ⟨by decide, by decide, by decide⟩

/-! ### C9 -/

/-- C9 counterexample: the store holds "A"; under NOCASE the name "a"
matches (`projectExists` agrees), yet `ProjectManager::getProjectByName`
compares loaded names with exact `==`, so the lookup for "a" fails with
"Project not found" although a case-insensitive match exists. -/
theorem C9_counterexample :
    Database.projectExists ⟨[⟨"A", "", ProjectStatus.NOT_STARTED⟩], []⟩ "a" = true ∧
    eqNoCase "A" "a" = true ∧
    ProjectManager.getProjectByName ⟨[⟨"A", "", ProjectStatus.NOT_STARTED⟩], []⟩ "a" =
      Except.error "Project not found" :=
  ⟨rfl, rfl, by rfl⟩

/-- C9 amended: `getProjectByName(n)` returns the first loaded project
whose name equals `n` under exact, case-SENSITIVE comparison, and fails
with the "Project not found" condition exactly when no loaded project's
name equals `n` exactly — a project differing only in letter case is not
returned. -/
theorem C9_getProjectByName_exact_match (db : DBState) (n : String) (ps : List Project)
    (h : Database.loadAllProjects db = Except.ok ps) :
    ((∃ q ∈ ps, q.getName = n) →
      ∃ q, ProjectManager.getProjectByName db n = Except.ok q ∧ q ∈ ps ∧ q.getName = n) ∧
    ((∀ q ∈ ps, q.getName ≠ n) →
      ProjectManager.getProjectByName db n = Except.error "Project not found") := by
  have hrun : ProjectManager.getProjectByName db n =
      (match ps.find? fun p => p.getName == n with
       | some p => Except.ok p
       | none => Except.error "Project not found") := by
    unfold ProjectManager.getProjectByName
    rw [h]
    rfl
  constructor
  · intro hex
    cases hf : ps.find? fun p => p.getName == n with
    | some q =>
      refine ⟨q, by rw [hrun, hf], List.mem_of_find?_eq_some hf, ?_⟩
      have := List.find?_some hf
      simpa using this
    | none =>
      obtain ⟨q, hq, hname⟩ := hex
      have := List.find?_eq_none.mp hf q hq
      simp [hname] at this
  · intro hall
    have hf : (ps.find? fun p => p.getName == n) = none :=
      List.find?_eq_none.mpr fun q hq => by simpa using hall q hq
    rw [hrun, hf]

/-- Witness for C9: a store holding exactly "A"; the exact-name lookup for
"A" succeeds and returns it. -/
theorem C9_witness :
    ∃ q, ProjectManager.getProjectByName
        ⟨[⟨"A", "x", ProjectStatus.NOT_STARTED⟩], []⟩ "A" = Except.ok q ∧
      q ∈ [⟨"A", "x", ProjectStatus.NOT_STARTED, []⟩] ∧ q.getName = "A" :=
  (C9_getProjectByName_exact_match ⟨[⟨"A", "x", ProjectStatus.NOT_STARTED⟩], []⟩ "A"
    [⟨"A", "x", ProjectStatus.NOT_STARTED, []⟩] (by rfl)).1
    ⟨⟨"A", "x", ProjectStatus.NOT_STARTED, []⟩, by decide, rfl⟩

end DevTrack
